import Mathlib

/-!
Verification of the Teams-to-SFMC webhook signature engine (`src/server.js`).

The development shallowly embeds the signature-verification core of the
repository: byte buffers become `List Nat` (each entry a byte value),
JavaScript strings become `List Char` (or Lean `String` at the interface),
and the `crypto.createHmac("sha256", SHARED_SECRET) ... digest()` primitive
is abstracted as a parameter `computeHmacBuffer : List Nat → List Nat`
(the HMAC-SHA256 of the buffer under the fixed process-wide secret).
Quantifying over this parameter quantifies over the secret key; the only
facts the theorems assume about it are facts true of real HMAC-SHA256
digests (32 bytes long, bytes below 256).

Embedded operations, in source order:
  * `safeEqual` (server.js lines 34-38), with a `JsArg`/`Except` model that
    makes the Buffer-type guard and the throwing behaviour of
    `crypto.timingSafeEqual` explicit;
  * `generateVariants` (server.js lines 44-114), including Node's UTF-8
    decode (WHATWG replacement semantics of `Buffer.toString("utf8")`),
    UTF-8 encode (`Buffer.from(str, "utf8")`), the JSON round trip of
    `JSON.stringify(JSON.parse(s))`, and the base64-keyed deduplication;
  * `verifyAcrossVariants` (server.js lines 119-142), including the
    `/^HMAC\s+(.+)$/i` header regex with its greedy/backtracking match
    semantics and Node's lenient `Buffer.from(str, "base64")` decoder,
    which skips characters outside the (standard plus url-safe) base64
    alphabets and never throws.

The verification entry point is instrumented (`verifyAcrossVariantsT`) to
record how many HMAC digests were computed and whether `generateVariants`
was invoked, so that the "rejects without evaluating any candidate" claims
can be stated; `verifyAcrossVariants` is its outcome projection.
-/

/-! ## JavaScript character class helpers -/

/-- Membership in the JavaScript regex class `\s` (also the set stripped by
`String.prototype.trim`): tab, LF, VT, FF, CR, space, NBSP, Ogham space,
the U+2000..U+200A range, LS, PS, NNBSP, MMSP, ideographic space, BOM. -/
def isJsWs (c : Char) : Bool :=
  let n := c.toNat
  n == 0x9 || n == 0xA || n == 0xB || n == 0xC || n == 0xD || n == 0x20 ||
  n == 0xA0 || n == 0x1680 || (0x2000 ≤ n && n ≤ 0x200A) ||
  n == 0x2028 || n == 0x2029 || n == 0x202F || n == 0x205F ||
  n == 0x3000 || n == 0xFEFF

/-- Characters matched by the regex metacharacter `.` without the `s` flag:
everything except the line terminators LF, CR, LS, PS. -/
def isDotChar (c : Char) : Bool :=
  let n := c.toNat
  !(n == 0xA || n == 0xD || n == 0x2028 || n == 0x2029)

/-- Model of `String.prototype.trim`: drop `\s` characters from both ends. -/
def jsTrim (cs : List Char) : List Char :=
  ((cs.dropWhile isJsWs).reverse.dropWhile isJsWs).reverse

/-! ## Base64

Node's `Buffer.prototype.toString("base64")` (standard alphabet, padded) and
`Buffer.from(str, "base64")`. The decoder is the lenient legacy Node
decoder: every character outside the standard and url-safe alphabets
(including `=` and whitespace) is skipped, the surviving 6-bit groups are
packed, and a trailing group of fewer than 8 bits is dropped. It never
throws, so the `try/catch` around it in `verifyAcrossVariants` is inert. -/

def b64Alphabet : List Char :=
  "ABCDEFGHIJKLMNOPQRSTUVWXYZabcdefghijklmnopqrstuvwxyz0123456789+/".data

/-- Character of a 6-bit value in the standard base64 alphabet. -/
def b64CharOf (n : Nat) : Char := b64Alphabet.getD n 'A'

/-- Value of a base64 character; accepts the standard and url-safe
alphabets, `none` for everything else (which Node's decoder skips). -/
def b64CharVal (c : Char) : Option Nat :=
  if 'A' ≤ c && c ≤ 'Z' then some (c.toNat - 'A'.toNat)
  else if 'a' ≤ c && c ≤ 'z' then some (26 + (c.toNat - 'a'.toNat))
  else if '0' ≤ c && c ≤ '9' then some (52 + (c.toNat - '0'.toNat))
  else if c == '+' || c == '-' then some 62
  else if c == '/' || c == '_' then some 63
  else none

/-- Base64 encoding of a byte list (standard alphabet, `=`-padded), as
produced by `buffer.toString("base64")`. -/
def b64encodeCore : List Nat → List Char
  | a :: b :: c :: rest =>
    b64CharOf (a / 4) :: b64CharOf ((a % 4) * 16 + b / 16) ::
    b64CharOf ((b % 16) * 4 + c / 64) :: b64CharOf (c % 64) :: b64encodeCore rest
  | [a, b] =>
    [b64CharOf (a / 4), b64CharOf ((a % 4) * 16 + b / 16), b64CharOf ((b % 16) * 4), '=']
  | [a] =>
    [b64CharOf (a / 4), b64CharOf ((a % 4) * 16), '=', '=']
  | [] => []

/-- Packing of 6-bit groups into bytes; a trailing group of fewer than
8 bits is dropped, as in Node's base64 decoder. -/
def sextetsToBytes : List Nat → List Nat
  | a :: b :: c :: d :: rest =>
    (a * 4 + b / 16) :: ((b % 16) * 16 + c / 4) :: ((c % 4) * 64 + d) :: sextetsToBytes rest
  | [a, b, c] => [a * 4 + b / 16, (b % 16) * 16 + c / 4]
  | [a, b] => [a * 4 + b / 16]
  | _ => []

/-- Lenient base64 decoding, `Buffer.from(cs, "base64")`: skip characters
outside the alphabets, pack the rest. Total, never throws. -/
def b64decode (cs : List Char) : List Nat :=
  sextetsToBytes (cs.filterMap b64CharVal)

/-! ## UTF-8

`Buffer.prototype.toString("utf8")` follows the WHATWG decoder: every
maximal invalid subpart of the byte stream is replaced by one U+FFFD.
`Buffer.from(str, "utf8")` is the standard UTF-8 encoder. -/

/-- Lower bound for the second byte of a 3-byte sequence (WHATWG). -/
def utf8Lo3 (b : Nat) : Nat := if b == 0xE0 then 0xA0 else 0x80

/-- Upper bound for the second byte of a 3-byte sequence (WHATWG). -/
def utf8Hi3 (b : Nat) : Nat := if b == 0xED then 0x9F else 0xBF

/-- Lower bound for the second byte of a 4-byte sequence (WHATWG). -/
def utf8Lo4 (b : Nat) : Nat := if b == 0xF0 then 0x90 else 0x80

/-- Upper bound for the second byte of a 4-byte sequence (WHATWG). -/
def utf8Hi4 (b : Nat) : Nat := if b == 0xF4 then 0x8F else 0xBF

/-- WHATWG UTF-8 decoder with U+FFFD replacement, the semantics of
`buffer.toString("utf8")` in Node. On an invalid or truncated sequence it
emits one replacement character and resumes at the offending byte. -/
def utf8Decode : List Nat → List Char
  | [] => []
  | b :: rest =>
    if b < 0x80 then Char.ofNat b :: utf8Decode rest
    else if 0xC2 ≤ b && b ≤ 0xDF then
      match rest with
      | [] => [Char.ofNat 0xFFFD]
      | b2 :: rest2 =>
        if 0x80 ≤ b2 && b2 ≤ 0xBF then
          Char.ofNat ((b - 0xC0) * 64 + (b2 - 0x80)) :: utf8Decode rest2
        else Char.ofNat 0xFFFD :: utf8Decode (b2 :: rest2)
    else if 0xE0 ≤ b && b ≤ 0xEF then
      match rest with
      | [] => [Char.ofNat 0xFFFD]
      | b2 :: rest2 =>
        if utf8Lo3 b ≤ b2 && b2 ≤ utf8Hi3 b then
          match rest2 with
          | [] => [Char.ofNat 0xFFFD]
          | b3 :: rest3 =>
            if 0x80 ≤ b3 && b3 ≤ 0xBF then
              Char.ofNat ((b - 0xE0) * 4096 + (b2 - 0x80) * 64 + (b3 - 0x80)) :: utf8Decode rest3
            else Char.ofNat 0xFFFD :: utf8Decode (b3 :: rest3)
        else Char.ofNat 0xFFFD :: utf8Decode (b2 :: rest2)
    else if 0xF0 ≤ b && b ≤ 0xF4 then
      match rest with
      | [] => [Char.ofNat 0xFFFD]
      | b2 :: rest2 =>
        if utf8Lo4 b ≤ b2 && b2 ≤ utf8Hi4 b then
          match rest2 with
          | [] => [Char.ofNat 0xFFFD]
          | b3 :: rest3 =>
            if 0x80 ≤ b3 && b3 ≤ 0xBF then
              match rest3 with
              | [] => [Char.ofNat 0xFFFD]
              | b4 :: rest4 =>
                if 0x80 ≤ b4 && b4 ≤ 0xBF then
                  Char.ofNat ((b - 0xF0) * 262144 + (b2 - 0x80) * 4096 +
                    (b3 - 0x80) * 64 + (b4 - 0x80)) :: utf8Decode rest4
                else Char.ofNat 0xFFFD :: utf8Decode (b4 :: rest4)
            else Char.ofNat 0xFFFD :: utf8Decode (b3 :: rest3)
        else Char.ofNat 0xFFFD :: utf8Decode (b2 :: rest2)
    else Char.ofNat 0xFFFD :: utf8Decode rest

/-- UTF-8 encoding of one scalar value, `Buffer.from(s, "utf8")` per char. -/
def utf8EncodeChar (c : Char) : List Nat :=
  let n := c.toNat
  if n < 0x80 then [n]
  else if n < 0x800 then [0xC0 + n / 64, 0x80 + n % 64]
  else if n < 0x10000 then [0xE0 + n / 4096, 0x80 + (n / 64) % 64, 0x80 + n % 64]
  else [0xF0 + n / 262144, 0x80 + (n / 4096) % 64, 0x80 + (n / 64) % 64, 0x80 + n % 64]

/-- UTF-8 encoding of a character list, `Buffer.from(str, "utf8")`. -/
def utf8Encode (cs : List Char) : List Nat := cs.flatMap utf8EncodeChar

/-! ## JSON

Model of `JSON.parse` followed by `JSON.stringify`, as used by the
`json-stringified` candidate. The parser follows the JSON grammar (strings
with escapes, numbers as lexemes, arrays, objects, `null`/`true`/`false`),
driven by a character-count fuel that always suffices. Modelling notes:
numbers are kept as their source lexemes (JavaScript re-renders doubles;
the two agree on canonical integer lexemes, and no claim in this
development evaluates a numeric body); object fields are kept in parse
order with duplicates retained (JavaScript reorders integer-like keys
first and collapses duplicates; no claim evaluates such a body); a `\u`
escape denoting a lone surrogate is modelled as U+0000 (JavaScript strings
may carry lone surrogates, Lean characters cannot; no claim evaluates such
a body). -/

inductive JsonValue where
  | null : JsonValue
  | boolean (b : Bool) : JsonValue
  | num (lexeme : List Char) : JsonValue
  | str (s : List Char) : JsonValue
  | arr (elems : List JsonValue) : JsonValue
  | obj (fields : List (List Char × JsonValue)) : JsonValue

/-- JSON insignificant whitespace. -/
def jsonSkipWs (cs : List Char) : List Char :=
  cs.dropWhile (fun c => c == ' ' || c == '\t' || c == '\n' || c == '\r')

/-- Value of one hexadecimal digit, if any. -/
def hexVal (c : Char) : Option Nat :=
  if '0' ≤ c && c ≤ '9' then some (c.toNat - '0'.toNat)
  else if 'a' ≤ c && c ≤ 'f' then some (10 + (c.toNat - 'a'.toNat))
  else if 'A' ≤ c && c ≤ 'F' then some (10 + (c.toNat - 'A'.toNat))
  else none

/-- Parse the body of a JSON string after the opening quote; returns the
decoded contents and the remainder after the closing quote. -/
def jsonParseStr : List Char → Option (List Char × List Char)
  | [] => none
  | c :: rest =>
    if c == '"' then some ([], rest)
    else if c == '\\' then
      match rest with
      | [] => none
      | e :: rest2 =>
        if e == '"' || e == '\\' || e == '/' then
          (fun p => (e :: p.1, p.2)) <$> jsonParseStr rest2
        else if e == 'b' then (fun p => (Char.ofNat 8 :: p.1, p.2)) <$> jsonParseStr rest2
        else if e == 'f' then (fun p => (Char.ofNat 12 :: p.1, p.2)) <$> jsonParseStr rest2
        else if e == 'n' then (fun p => ('\n' :: p.1, p.2)) <$> jsonParseStr rest2
        else if e == 'r' then (fun p => ('\r' :: p.1, p.2)) <$> jsonParseStr rest2
        else if e == 't' then (fun p => ('\t' :: p.1, p.2)) <$> jsonParseStr rest2
        else if e == 'u' then
          match rest2 with
          | h1 :: h2 :: h3 :: h4 :: rest3 =>
            match hexVal h1, hexVal h2, hexVal h3, hexVal h4 with
            | some v1, some v2, some v3, some v4 =>
              (fun p => (Char.ofNat (v1 * 4096 + v2 * 256 + v3 * 16 + v4) :: p.1, p.2)) <$>
                jsonParseStr rest3
            | _, _, _, _ => none
          | _ => none
        else none
    else if c.toNat < 0x20 then none
    else (fun p => (c :: p.1, p.2)) <$> jsonParseStr rest

/-- Parse the optional fraction part of a JSON number lexeme. -/
def jsonFracPart : List Char → Option (List Char × List Char)
  | '.' :: t =>
    let ds := t.takeWhile Char.isDigit
    if ds.isEmpty then none else some ('.' :: ds, t.dropWhile Char.isDigit)
  | cs => some ([], cs)

/-- Parse the optional exponent part of a JSON number lexeme. -/
def jsonExpPart : List Char → Option (List Char × List Char)
  | [] => some ([], [])
  | c :: t =>
    if c == 'e' || c == 'E' then
      let (sgn, t2) :=
        match t with
        | [] => (([] : List Char), ([] : List Char))
        | s :: t2 => if s == '+' || s == '-' then ([s], t2) else ([], s :: t2)
      let ds := t2.takeWhile Char.isDigit
      if ds.isEmpty then none else some (c :: (sgn ++ ds), t2.dropWhile Char.isDigit)
    else some ([], c :: t)

/-- Parse a JSON number lexeme. -/
def jsonParseNum (cs : List Char) : Option (List Char × List Char) :=
  let (sign, cs1) :=
    match cs with
    | '-' :: t => ((['-'] : List Char), t)
    | _ => ([], cs)
  match cs1 with
  | [] => none
  | c :: t =>
    if !c.isDigit then none
    else
      let (intPart, rest) :=
        if c == '0' then ([c], t)
        else (c :: t.takeWhile Char.isDigit, t.dropWhile Char.isDigit)
      match jsonFracPart rest with
      | none => none
      | some (fr, r1) =>
        match jsonExpPart r1 with
        | none => none
        | some (ex, r2) => some (sign ++ intPart ++ fr ++ ex, r2)

mutual

/-- Parse one JSON value (after skipping leading whitespace), fuel-driven. -/
def jsonParseVal : Nat → List Char → Option (JsonValue × List Char)
  | 0, _ => none
  | fuel + 1, cs =>
    match jsonSkipWs cs with
    | [] => none
    | c :: t =>
      if c == 'n' then
        match t with
        | 'u' :: 'l' :: 'l' :: r => some (.null, r)
        | _ => none
      else if c == 't' then
        match t with
        | 'r' :: 'u' :: 'e' :: r => some (.boolean true, r)
        | _ => none
      else if c == 'f' then
        match t with
        | 'a' :: 'l' :: 's' :: 'e' :: r => some (.boolean false, r)
        | _ => none
      else if c == '"' then
        match jsonParseStr t with
        | some (s, r) => some (.str s, r)
        | none => none
      else if c == '[' then
        match jsonSkipWs t with
        | ']' :: r => some (.arr [], r)
        | t2 =>
          match jsonParseElems fuel t2 with
          | some (vs, r) => some (.arr vs, r)
          | none => none
      else if c == Char.ofNat 123 then
        match jsonSkipWs t with
        | [] => none
        | cb :: r =>
          if cb == Char.ofNat 125 then some (.obj [], r)
          else
            match jsonParseFields fuel (cb :: r) with
            | some (fs, r2) => some (.obj fs, r2)
            | none => none
      else if c == '-' || c.isDigit then
        match jsonParseNum (c :: t) with
        | some (lx, r) => some (.num lx, r)
        | none => none
      else none

/-- Parse the non-empty element list of a JSON array, up to `]`. -/
def jsonParseElems : Nat → List Char → Option (List JsonValue × List Char)
  | 0, _ => none
  | fuel + 1, cs =>
    match jsonParseVal fuel cs with
    | none => none
    | some (v, r) =>
      match jsonSkipWs r with
      | ',' :: r2 =>
        match jsonParseElems fuel r2 with
        | some (vs, r3) => some (v :: vs, r3)
        | none => none
      | ']' :: r2 => some ([v], r2)
      | _ => none

/-- Parse the non-empty field list of a JSON object, up to the closing
brace; the input starts at the first key's opening quote. -/
def jsonParseFields : Nat → List Char → Option (List (List Char × JsonValue) × List Char)
  | 0, _ => none
  | fuel + 1, cs =>
    match cs with
    | '"' :: t =>
      match jsonParseStr t with
      | none => none
      | some (k, r) =>
        match jsonSkipWs r with
        | ':' :: r2 =>
          match jsonParseVal fuel r2 with
          | none => none
          | some (v, r3) =>
            match jsonSkipWs r3 with
            | [] => none
            | ',' :: r4 =>
              match jsonParseFields fuel (jsonSkipWs r4) with
              | some (fs, r5) => some ((k, v) :: fs, r5)
              | none => none
            | cb :: r4 =>
              if cb == Char.ofNat 125 then some ([(k, v)], r4) else none
        | _ => none
    | _ => none

end

/-- Model of `JSON.parse`: parse one value and require only whitespace to
remain. Total; returns `none` exactly when `JSON.parse` would throw
(within the modelling notes above). -/
def jsonParse (cs : List Char) : Option JsonValue :=
  match jsonParseVal (cs.length + 1) cs with
  | some (v, r) => if (jsonSkipWs r).isEmpty then some v else none
  | none => none

/-- Hexadecimal digit characters used by `JSON.stringify` escapes. -/
def hexDigitChar (n : Nat) : Char := "0123456789abcdef".data.getD n '0'

/-- Escape of one character inside a `JSON.stringify` string literal. -/
def jsonEscapeChar (c : Char) : List Char :=
  if c == '"' then ['\\', '"']
  else if c == '\\' then ['\\', '\\']
  else if c == Char.ofNat 8 then ['\\', 'b']
  else if c == '\t' then ['\\', 't']
  else if c == '\n' then ['\\', 'n']
  else if c == Char.ofNat 12 then ['\\', 'f']
  else if c == '\r' then ['\\', 'r']
  else if c.toNat < 0x20 then
    ['\\', 'u', '0', '0', hexDigitChar (c.toNat / 16), hexDigitChar (c.toNat % 16)]
  else [c]

mutual

/-- Model of `JSON.stringify` (no spacing argument): minimal encoding,
fields in stored order. -/
def jsonStringify : JsonValue → List Char
  | .null => "null".data
  | .boolean true => "true".data
  | .boolean false => "false".data
  | .num lx => lx
  | .str s => '"' :: (s.flatMap jsonEscapeChar ++ ['"'])
  | .arr vs => '[' :: (jsonStringifyList vs ++ [']'])
  | .obj fs => Char.ofNat 123 :: (jsonStringifyFields fs ++ [Char.ofNat 125])

/-- Comma-separated serialization of array elements. -/
def jsonStringifyList : List JsonValue → List Char
  | [] => []
  | [v] => jsonStringify v
  | v :: rest => jsonStringify v ++ ',' :: jsonStringifyList rest

/-- Comma-separated serialization of object fields. -/
def jsonStringifyFields : List (List Char × JsonValue) → List Char
  | [] => []
  | [(k, v)] => '"' :: (k.flatMap jsonEscapeChar ++ ['"', ':'] ++ jsonStringify v)
  | (k, v) :: rest =>
    ('"' :: (k.flatMap jsonEscapeChar ++ ['"', ':'] ++ jsonStringify v)) ++
      ',' :: jsonStringifyFields rest

end


/-! ## String transformations of `generateVariants` -/

/-- Membership in the regex class `[\r\n]`. -/
def isCrOrLf (c : Char) : Bool := c == '\r' || c == '\n'

/-- Model of `asStr.replace(/[\r\n]+$/u, "")`: remove the trailing run of
CR/LF characters. -/
def trimTrailingCRLF (cs : List Char) : List Char :=
  ((cs.reverse).dropWhile isCrOrLf).reverse

/-- Model of `asStr.replace(/\s+$/u, "")`: remove the trailing run of
whitespace characters. -/
def trimTrailingJsWs (cs : List Char) : List Char :=
  ((cs.reverse).dropWhile isJsWs).reverse

/-- Model of `asStr.replace(/\r\n/g, "\n")`. -/
def replaceCrlfWithLf : List Char → List Char
  | '\r' :: '\n' :: rest => '\n' :: replaceCrlfWithLf rest
  | c :: rest => c :: replaceCrlfWithLf rest
  | [] => []

/-- Model of `asStr.replace(/\r\n/g, "\r")`. -/
def replaceCrlfWithCr : List Char → List Char
  | '\r' :: '\n' :: rest => '\r' :: replaceCrlfWithCr rest
  | c :: rest => c :: replaceCrlfWithCr rest
  | [] => []

/-! ## Candidate generation (`generateVariants`, server.js lines 44-114) -/

/-- Candidate object `{ name, buffer }` of `generateVariants`. -/
structure Variant where
  name : String
  buffer : List Nat
deriving DecidableEq, Repr

/-- Candidate list of `generateVariants` before deduplication, in source
push order. The source's BOM step first tests `asStr.charCodeAt(0)` but
pushes the identical variant under the identical byte-level condition in
both branches of that test, so the two branches are collapsed here: the
variant is pushed exactly when the buffer starts with `EF BB BF`. -/
def rawVariants (rawBuffer : List Nat) : List Variant :=
  let asStr := utf8Decode rawBuffer
  let trimmedStr := trimTrailingCRLF asStr
  let normalizedLF := replaceCrlfWithLf asStr
  let trimmedSpace := trimTrailingJsWs asStr
  let crOnly := replaceCrlfWithCr asStr
  ⟨"exact", rawBuffer⟩ ::
  ((if trimmedStr = asStr then [] else [⟨"trim-trailing-crlf", utf8Encode trimmedStr⟩]) ++
   (if normalizedLF = asStr then [] else [⟨"normalize-crlf->lf", utf8Encode normalizedLF⟩]) ++
   (if 3 ≤ rawBuffer.length ∧ rawBuffer.take 3 = [0xEF, 0xBB, 0xBF] then
      [⟨"remove-bom", rawBuffer.drop 3⟩] else []) ++
   (match jsonParse asStr with
    | some parsed =>
      let stable := jsonStringify parsed
      if stable = asStr then [] else [⟨"json-stringified", utf8Encode stable⟩]
    | none => []) ++
   (if trimmedSpace = asStr then [] else [⟨"trim-trailing-space", utf8Encode trimmedSpace⟩]) ++
   (if crOnly = asStr then [] else [⟨"normalize-crlf->cr", utf8Encode crOnly⟩]))

/-- Deduplication loop of `generateVariants`: the `seen` set holds the
base64 renderings (`v.buffer.toString("base64")`) of the buffers already
kept; a variant whose key was seen is dropped, otherwise it is kept and
its key recorded. -/
def dedupByKey : List Variant → List (List Char) → List Variant
  | [], _ => []
  | v :: rest, seen =>
    let key := b64encodeCore v.buffer
    if key ∈ seen then dedupByKey rest seen
    else v :: dedupByKey rest (key :: seen)

/-- Model of `generateVariants`: the pushed variants, deduplicated by the
base64 rendering of their byte content, first occurrence kept. -/
def generateVariants (rawBuffer : List Nat) : List Variant :=
  dedupByKey (rawVariants rawBuffer) []

/-! ## Comparator (`safeEqual`, server.js lines 34-38) -/

/-- Argument of `safeEqual` as seen from JavaScript: a byte `Buffer` or
any other value (for which `Buffer.isBuffer` is false). -/
inductive JsArg where
  | buf (bytes : List Nat) : JsArg
  | other (tag : String) : JsArg
deriving DecidableEq, Repr

/-- Model of `crypto.timingSafeEqual`: content equality of two equal-length
buffers; throws (modelled as `Except.error`) when the lengths differ. -/
def timingSafeEqual (a b : List Nat) : Except String Bool :=
  if a.length ≠ b.length then Except.error "ERR_CRYPTO_TIMING_SAFE_EQUAL_LENGTH"
  else Except.ok (a == b)

/-- Model of `safeEqual` (server.js lines 34-38): false for non-Buffer
arguments, false on length mismatch, otherwise `crypto.timingSafeEqual`.
The error branch of `timingSafeEqual` is unreachable behind the length
guard. -/
def safeEqual (bufA bufB : JsArg) : Except String Bool :=
  match bufA, bufB with
  | .buf a, .buf b =>
    if a.length ≠ b.length then Except.ok false
    else timingSafeEqual a b
  | _, _ => Except.ok false

/-- Comparison as it runs inside the verification loop, where both
arguments are Buffers: the pure value carried by `safeEqual` there
(see `safeEqual_eq_run`). -/
def safeEqualRun (a b : List Nat) : Bool :=
  a.length == b.length && a == b

/-! ## Verification engine (`verifyAcrossVariants`, server.js lines 119-142) -/

/-- Capture group of `/^HMAC\s+(.+)$/i` applied to the part of the header
after the case-insensitive `HMAC` literal, with the backtracking semantics
of the greedy `\s+`: if at least one non-whitespace character follows the
whitespace run, the capture is everything after that run (requiring all of
it to be matchable by `.`, i.e. free of line terminators); if the rest of
the header is all whitespace, the greedy `\s+` gives back its final
character to `.+` provided at least one whitespace character remains for
`\s+` and that final character is not itself a line terminator. -/
def regexHmacTail (tail : List Char) : Option (List Char) :=
  let w0 := tail.takeWhile isJsWs
  let r0 := tail.dropWhile isJsWs
  if r0.isEmpty then
    match w0.getLast? with
    | some c => if 2 ≤ w0.length && isDotChar c then some [c] else none
    | none => none
  else if w0.isEmpty then none
  else if r0.all isDotChar then some r0 else none

/-- Header checks and claim decoding of `verifyAcrossVariants` (lines
119-131): the missing/non-string guard, the `/^HMAC\s+(.+)$/i` match, the
`.trim()`, and the lenient base64 decode. The source wraps the decode in
`try/catch`, but `Buffer.from(_, "base64")` never throws, so the catch
branch is dead; the decode is total here. Returns the decoded claimed
signature bytes, or `none` on the fast-reject paths. -/
def parseSignatureHeaderChars (cs : List Char) : Option (List Nat) :=
  match cs with
  | c1 :: c2 :: c3 :: c4 :: tail =>
    if (c1 == 'H' || c1 == 'h') && (c2 == 'M' || c2 == 'm') &&
       (c3 == 'A' || c3 == 'a') && (c4 == 'C' || c4 == 'c') then
      match regexHmacTail tail with
      | some captured => some (b64decode (jsTrim captured))
      | none => none
    else none
  | _ => none

/-- Header checks and claim decoding, at the `Option String` interface:
`none` models a missing header or a non-string header value. -/
def parseSignatureHeader (header : Option String) : Option (List Nat) :=
  match header with
  | none => none
  | some h => parseSignatureHeaderChars h.data

/-- Verification outcome `{ ok, variant }`; `variant` is absent on
failure. -/
structure Outcome where
  ok : Bool
  variant : Option String
deriving DecidableEq, Repr

/-- Instrumented result of one verification call: the outcome, how many
HMAC digests were computed, and whether `generateVariants` was invoked. -/
structure VerifyTrace where
  outcome : Outcome
  digests : Nat
  generated : Bool
deriving DecidableEq, Repr

/-- Candidate loop of `verifyAcrossVariants` (lines 135-140): compute the
digest of each candidate in order, return at the first length-checked
constant-time match, tagged with the candidate's name. Also counts the
digests computed. -/
def tryVariants (computeHmacBuffer : List Nat → List Nat) (received : List Nat) :
    List Variant → Outcome × Nat
  | [] => (⟨false, none⟩, 0)
  | v :: rest =>
    let computed := computeHmacBuffer v.buffer
    if computed.length == received.length && safeEqualRun computed received then
      (⟨true, some v.name⟩, 1)
    else
      let r := tryVariants computeHmacBuffer received rest
      (r.1, r.2 + 1)

/-- Instrumented model of `verifyAcrossVariants` (server.js lines
119-142), parameterised by the HMAC-SHA256-under-the-process-secret
primitive `computeHmacBuffer` (server.js lines 27-29). -/
def verifyAcrossVariantsT (computeHmacBuffer : List Nat → List Nat)
    (rawBuffer : List Nat) (header : Option String) : VerifyTrace :=
  match parseSignatureHeader header with
  | none => ⟨⟨false, none⟩, 0, false⟩
  | some receivedBuffer =>
    let candidates := generateVariants rawBuffer
    let r := tryVariants computeHmacBuffer receivedBuffer candidates
    ⟨r.1, r.2, true⟩

/-- Model of `verifyAcrossVariants`: the outcome of the instrumented run. -/
def verifyAcrossVariants (computeHmacBuffer : List Nat → List Nat)
    (rawBuffer : List Nat) (header : Option String) : Outcome :=
  (verifyAcrossVariantsT computeHmacBuffer rawBuffer header).outcome

/-- Spec-side description used by claim C7: the byte sequence with its
trailing run of CR (13) and LF (10) bytes removed. -/
def byteTrimTrailingCRLF (bs : List Nat) : List Nat :=
  ((bs.reverse).dropWhile (fun b => b == 13 || b == 10)).reverse

/-- Stand-in digest function for concrete witnesses: 32 bytes, all equal
to the input length modulo 256. It has the digest-shape properties the
theorems assume of HMAC-SHA256 (length 32, bytes below 256) and separates
inputs of different lengths. -/
def mockHmac (buf : List Nat) : List Nat := List.replicate 32 (buf.length % 256)

/-! ## Base64 lemmas -/

/-- Decoding inverts the alphabet table on 6-bit values. -/
theorem b64CharVal_b64CharOf : ∀ n, n < 64 → b64CharVal (b64CharOf n) = some n := by
  decide

/-- Padding characters are skipped by the decoder. -/
theorem b64CharVal_eq_pad : b64CharVal '=' = none := by
  decide

/-- Alphabet characters are neither whitespace nor line terminators. -/
theorem b64CharOf_props (n : Nat) :
    isJsWs (b64CharOf n) = false ∧ isDotChar (b64CharOf n) = true := by
  by_cases h : n < 64
  · exact (by decide : ∀ m, m < 64 → isJsWs (b64CharOf m) = false ∧ isDotChar (b64CharOf m) = true) n h
  · have hlen : b64Alphabet.length ≤ n := by
      have : b64Alphabet.length = 64 := by decide
      omega
    unfold b64CharOf
    rw [List.getD_eq_default _ _ hlen]
    decide

/-- Every character emitted by the encoder is an alphabet character or a
padding `=`; in particular it is not whitespace and `.` matches it. -/
theorem b64encodeCore_chars (l : List Nat) :
    ∀ c ∈ b64encodeCore l, isJsWs c = false ∧ isDotChar c = true := by
  induction l using b64encodeCore.induct with
  | case1 a b c rest ih =>
    intro x hx
    simp only [b64encodeCore, List.mem_cons] at hx
    rcases hx with h | h | h | h | h
    · exact h ▸ b64CharOf_props _
    · exact h ▸ b64CharOf_props _
    · exact h ▸ b64CharOf_props _
    · exact h ▸ b64CharOf_props _
    · exact ih x h
  | case2 a b =>
    intro x hx
    simp only [b64encodeCore, List.mem_cons, List.not_mem_nil, or_false] at hx
    rcases hx with h | h | h | h
    all_goals first
      | (exact h ▸ b64CharOf_props _)
      | (subst h; decide)
  | case3 a =>
    intro x hx
    simp only [b64encodeCore, List.mem_cons, List.not_mem_nil, or_false] at hx
    rcases hx with h | h | h | h
    all_goals first
      | (exact h ▸ b64CharOf_props _)
      | (subst h; decide)
  | case4 => intro x hx; simp [b64encodeCore] at hx

/-- The encoder maps nonempty byte lists to nonempty character lists. -/
theorem b64encodeCore_ne_nil {l : List Nat} (h : l ≠ []) : b64encodeCore l ≠ [] := by
  match l with
  | [] => exact absurd rfl h
  | [a] => simp [b64encodeCore]
  | [a, b] => simp [b64encodeCore]
  | a :: b :: c :: rest => simp [b64encodeCore]

/-- Round trip: Node's lenient decoder inverts the encoder on byte lists. -/
theorem b64decode_b64encode (l : List Nat) (hl : ∀ x ∈ l, x < 256) :
    b64decode (b64encodeCore l) = l := by
  unfold b64decode
  induction l using b64encodeCore.induct with
  | case1 a b c rest ih =>
    have ha : a < 256 := hl a (by simp)
    have hb : b < 256 := hl b (by simp)
    have hc : c < 256 := hl c (by simp)
    have h1 : a / 4 < 64 := by omega
    have h2 : (a % 4) * 16 + b / 16 < 64 := by omega
    have h3 : (b % 16) * 4 + c / 64 < 64 := by omega
    have h4 : c % 64 < 64 := by omega
    simp only [b64encodeCore, List.filterMap_cons,
      b64CharVal_b64CharOf _ h1, b64CharVal_b64CharOf _ h2,
      b64CharVal_b64CharOf _ h3, b64CharVal_b64CharOf _ h4]
    rw [show ∀ t : List Nat, sextetsToBytes (a / 4 :: ((a % 4) * 16 + b / 16) ::
      ((b % 16) * 4 + c / 64) :: (c % 64) :: t) =
      ((a / 4) * 4 + ((a % 4) * 16 + b / 16) / 16) ::
      ((((a % 4) * 16 + b / 16) % 16) * 16 + ((b % 16) * 4 + c / 64) / 4) ::
      ((((b % 16) * 4 + c / 64) % 4) * 64 + c % 64) :: sextetsToBytes t from
        fun t => rfl]
    have ea : (a / 4) * 4 + ((a % 4) * 16 + b / 16) / 16 = a := by omega
    have eb : (((a % 4) * 16 + b / 16) % 16) * 16 + ((b % 16) * 4 + c / 64) / 4 = b := by omega
    have ec : (((b % 16) * 4 + c / 64) % 4) * 64 + c % 64 = c := by omega
    rw [ea, eb, ec, ih (fun x hx => hl x (by simp [hx]))]
  | case2 a b =>
    have ha : a < 256 := hl a (by simp)
    have hb : b < 256 := hl b (by simp)
    have h1 : a / 4 < 64 := by omega
    have h2 : (a % 4) * 16 + b / 16 < 64 := by omega
    have h3 : (b % 16) * 4 < 64 := by omega
    simp only [b64encodeCore, List.filterMap_cons,
      b64CharVal_b64CharOf _ h1, b64CharVal_b64CharOf _ h2,
      b64CharVal_b64CharOf _ h3, b64CharVal_eq_pad]
    show sextetsToBytes [a / 4, (a % 4) * 16 + b / 16, (b % 16) * 4] = [a, b]
    show [(a / 4) * 4 + ((a % 4) * 16 + b / 16) / 16,
      (((a % 4) * 16 + b / 16) % 16) * 16 + ((b % 16) * 4) / 4] = [a, b]
    have ea : (a / 4) * 4 + ((a % 4) * 16 + b / 16) / 16 = a := by omega
    have eb : (((a % 4) * 16 + b / 16) % 16) * 16 + ((b % 16) * 4) / 4 = b := by omega
    rw [ea, eb]
  | case3 a =>
    have ha : a < 256 := hl a (by simp)
    have h1 : a / 4 < 64 := by omega
    have h2 : (a % 4) * 16 < 64 := by omega
    simp only [b64encodeCore, List.filterMap_cons,
      b64CharVal_b64CharOf _ h1, b64CharVal_b64CharOf _ h2, b64CharVal_eq_pad]
    show sextetsToBytes [a / 4, (a % 4) * 16] = [a]
    show [(a / 4) * 4 + ((a % 4) * 16) / 16] = [a]
    have ea : (a / 4) * 4 + ((a % 4) * 16) / 16 = a := by omega
    rw [ea]
  | case4 => rfl

/-- The base64 key is injective on byte lists. -/
theorem b64encodeCore_inj {l₁ l₂ : List Nat} (h₁ : ∀ x ∈ l₁, x < 256)
    (h₂ : ∀ x ∈ l₂, x < 256) (h : b64encodeCore l₁ = b64encodeCore l₂) : l₁ = l₂ := by
  have := b64decode_b64encode l₁ h₁
  rw [h, b64decode_b64encode l₂ h₂] at this
  exact this.symm

/-! ## Header parsing lemmas -/

/-- Lists on which a predicate is everywhere false survive `takeWhile`
untouched as the empty prefix. -/
theorem takeWhile_all_false {p : Char → Bool} :
    ∀ {l : List Char}, (∀ c ∈ l, p c = false) → l.takeWhile p = [] := by
  intro l h
  cases l with
  | nil => rfl
  | cons c t => simp [List.takeWhile_cons, h c (by simp)]

/-- Lists on which a predicate is everywhere false survive `dropWhile`
untouched. -/
theorem dropWhile_all_false {p : Char → Bool} :
    ∀ {l : List Char}, (∀ c ∈ l, p c = false) → l.dropWhile p = l := by
  intro l h
  cases l with
  | nil => rfl
  | cons c t => simp [List.dropWhile_cons, h c (by simp)]

/-- Trimming is the identity on strings without whitespace characters. -/
theorem jsTrim_all_nonWs {l : List Char} (h : ∀ c ∈ l, isJsWs c = false) :
    jsTrim l = l := by
  unfold jsTrim
  rw [dropWhile_all_false h, dropWhile_all_false (fun c hc => h c (by simpa using hc)),
    List.reverse_reverse]

/-- Parsing a well-formed header: `HMAC ` followed by the base64 encoding
of a nonempty digest whose entries are bytes decodes back to that digest. -/
theorem parseSignatureHeader_wellFormed (digest : List Nat) (hne : digest ≠ [])
    (hlt : ∀ y ∈ digest, y < 256) :
    parseSignatureHeader (some ("HMAC " ++ String.mk (b64encodeCore digest))) =
      some digest := by
  have hdata : ("HMAC " ++ String.mk (b64encodeCore digest)).data =
      'H' :: 'M' :: 'A' :: 'C' :: ' ' :: b64encodeCore digest := by
    rw [String.data_append]
    rfl
  have hchars := b64encodeCore_chars digest
  have hnonws : ∀ c ∈ b64encodeCore digest, isJsWs c = false :=
    fun c hc => (hchars c hc).1
  have htail : regexHmacTail (' ' :: b64encodeCore digest) = some (b64encodeCore digest) := by
    unfold regexHmacTail
    have htake : (' ' :: b64encodeCore digest).takeWhile isJsWs = [' '] := by
      simp [List.takeWhile_cons, takeWhile_all_false hnonws, isJsWs]
    have hdrop : (' ' :: b64encodeCore digest).dropWhile isJsWs = b64encodeCore digest := by
      simp [List.dropWhile_cons, dropWhile_all_false hnonws, isJsWs]
    rw [htake, hdrop]
    have hne' : b64encodeCore digest ≠ [] := b64encodeCore_ne_nil hne
    have hall : (b64encodeCore digest).all isDotChar = true := by
      rw [List.all_eq_true]
      exact fun c hc => (hchars c hc).2
    simp [List.isEmpty_iff, hne', hall]
  show parseSignatureHeaderChars ("HMAC " ++ String.mk (b64encodeCore digest)).data =
    some digest
  rw [hdata]
  simp only [parseSignatureHeaderChars, htail]
  norm_num
  rw [jsTrim_all_nonWs hnonws, b64decode_b64encode digest hlt]

/-! ## UTF-8 encoder lemmas -/

/-- Scalar values of Lean characters are below 0x110000. -/
theorem char_toNat_lt (c : Char) : c.toNat < 0x110000 := by
  have h := c.valid
  rcases h with h | h
  · exact Nat.lt_trans h (by norm_num)
  · exact h.2

/-- Every byte produced by the UTF-8 encoder is below 256. -/
theorem utf8EncodeChar_lt256 (c : Char) : ∀ x ∈ utf8EncodeChar c, x < 256 := by
  have hv := char_toNat_lt c
  intro x hx
  simp only [utf8EncodeChar] at hx
  split_ifs at hx with h1 h2 h3
  all_goals simp only [List.mem_cons, List.not_mem_nil, or_false] at hx
  all_goals rcases hx with h | h | h | h | h <;> omega

/-- Every byte of an encoded string is below 256. -/
theorem utf8Encode_lt256 (cs : List Char) : ∀ x ∈ utf8Encode cs, x < 256 := by
  intro x hx
  unfold utf8Encode at hx
  rw [List.mem_flatMap] at hx
  obtain ⟨c, _, hc⟩ := hx
  exact utf8EncodeChar_lt256 c x hc

/-- Encoding distributes over concatenation. -/
theorem utf8Encode_append (xs ys : List Char) :
    utf8Encode (xs ++ ys) = utf8Encode xs ++ utf8Encode ys := by
  unfold utf8Encode
  exact List.flatMap_append xs ys utf8EncodeChar

/-! ## Deduplication lemmas -/

/-- Abbreviation for the deduplication key of a variant. -/
def variantKey (v : Variant) : List Char := b64encodeCore v.buffer

/-- Deduplication never lengthens the list. -/
theorem dedupByKey_length_le : ∀ (l : List Variant) (seen : List (List Char)),
    (dedupByKey l seen).length ≤ l.length := by
  intro l
  induction l with
  | nil => intro seen; simp [dedupByKey]
  | cons v rest ih =>
    intro seen
    unfold dedupByKey
    by_cases h : variantKey v ∈ seen
    · simp only [variantKey] at h
      simp only [h, if_pos]
      exact Nat.le_trans (ih seen) (by simp)
    · simp only [variantKey] at h
      simp only [h, if_neg, not_false_iff]
      simpa using ih (b64encodeCore v.buffer :: seen)

/-- The deduplicated list is a sublist of the original. -/
theorem dedupByKey_sublist : ∀ (l : List Variant) (seen : List (List Char)),
    (dedupByKey l seen).Sublist l := by
  intro l
  induction l with
  | nil => intro seen; simp [dedupByKey]
  | cons v rest ih =>
    intro seen
    unfold dedupByKey
    by_cases h : b64encodeCore v.buffer ∈ seen
    · simp only [h, if_pos]
      exact (ih seen).trans (List.sublist_cons_self v rest)
    · simp only [h, if_neg, not_false_iff]
      exact (ih _).cons₂ v

/-- Membership in the deduplicated list implies membership in the
original. -/
theorem dedupByKey_subset {l : List Variant} {seen : List (List Char)} :
    ∀ v ∈ dedupByKey l seen, v ∈ l :=
  fun _ hv => (dedupByKey_sublist l seen).mem hv

/-- Keys of the kept variants avoid the seen set and are mutually
distinct. -/
theorem dedupByKey_keys :
    ∀ (l : List Variant) (seen : List (List Char)),
    (∀ v ∈ dedupByKey l seen, variantKey v ∉ seen) ∧
    ((dedupByKey l seen).map variantKey).Nodup := by
  intro l
  induction l with
  | nil => intro seen; simp [dedupByKey]
  | cons u rest ih =>
    intro seen
    unfold dedupByKey
    by_cases h : b64encodeCore u.buffer ∈ seen
    · simp only [h, if_pos]
      exact ih seen
    · simp only [h, if_neg, not_false_iff]
      obtain ⟨ihm, ihn⟩ := ih (b64encodeCore u.buffer :: seen)
      constructor
      · intro v hv
        rcases List.mem_cons.mp hv with rfl | hv
        · exact h
        · exact fun hs => (ihm v hv) (List.mem_cons_of_mem _ hs)
      · rw [List.map_cons, List.nodup_cons]
        refine ⟨?_, ihn⟩
        intro hmem
        rw [List.mem_map] at hmem
        obtain ⟨v, hv, hk⟩ := hmem
        exact (ihm v hv) (hk ▸ List.mem_cons_self _ _)

/-- Each kept variant is the first-pushed variant bearing its key: every
earlier position holds a variant with a different key. -/
theorem dedupByKey_first_occ :
    ∀ (l : List Variant) (seen : List (List Char)) (v : Variant),
    v ∈ dedupByKey l seen →
    variantKey v ∉ seen ∧
    ∃ i : Nat, l[i]? = some v ∧
      ∀ j, j < i → ∀ w, l[j]? = some w → variantKey w ≠ variantKey v := by
  intro l
  induction l with
  | nil => intro seen v hv; simp [dedupByKey] at hv
  | cons u rest ih =>
    intro seen v hv
    unfold dedupByKey at hv
    by_cases h : b64encodeCore u.buffer ∈ seen
    · simp only [h, if_pos] at hv
      obtain ⟨hnot, i, hi, hj⟩ := ih seen v hv
      refine ⟨hnot, i + 1, by simpa using hi, ?_⟩
      intro j hji w hw
      match j with
      | 0 =>
        simp only [List.getElem?_cons_zero, Option.some_inj] at hw
        cases hw
        intro hk
        apply hnot
        rw [← hk]
        exact h
      | j + 1 =>
        exact hj j (by omega) w (by simpa using hw)
    · simp only [h, if_neg, not_false_iff] at hv
      rcases List.mem_cons.mp hv with rfl | hv
      · exact ⟨h, 0, by simp, by omega⟩
      · obtain ⟨hnot, i, hi, hj⟩ := ih (b64encodeCore u.buffer :: seen) v hv
        have hvs : variantKey v ∉ seen := fun hs => hnot (List.mem_cons_of_mem _ hs)
        have hvu : variantKey v ≠ b64encodeCore u.buffer :=
          fun hk => hnot (hk ▸ List.mem_cons_self _ _)
        refine ⟨hvs, i + 1, by simpa using hi, ?_⟩
        intro j hji w hw
        match j with
        | 0 =>
          simp only [List.getElem?_cons_zero, Option.some_inj] at hw
          cases hw
          intro hk
          exact hvu hk.symm
        | j + 1 =>
          exact hj j (by omega) w (by simpa using hw)

/-- Every pushed variant's byte content survives deduplication: some kept
variant carries the same key (hence, for byte buffers, the same bytes). -/
theorem dedupByKey_coverage :
    ∀ (l : List Variant) (seen : List (List Char)) (w : Variant), w ∈ l →
    variantKey w ∈ seen ∨ ∃ v ∈ dedupByKey l seen, variantKey v = variantKey w := by
  intro l
  induction l with
  | nil => intro seen w hw; simp at hw
  | cons u rest ih =>
    intro seen w hw
    unfold dedupByKey
    by_cases h : b64encodeCore u.buffer ∈ seen
    · simp only [h, if_pos]
      rcases List.mem_cons.mp hw with rfl | hw
      · exact Or.inl h
      · exact ih seen w hw
    · simp only [h, if_neg, not_false_iff]
      rcases List.mem_cons.mp hw with rfl | hw
      · exact Or.inr ⟨w, List.mem_cons_self _ _, rfl⟩
      · rcases ih (b64encodeCore u.buffer :: seen) w hw with hs | ⟨v, hv, hk⟩
        · rcases List.mem_cons.mp hs with hk | hs
          · exact Or.inr ⟨u, List.mem_cons_self _ _, hk.symm⟩
          · exact Or.inl hs
        · exact Or.inr ⟨v, List.mem_cons_of_mem _ hv, hk⟩

/-! ## Structure of the candidate list -/

/-- Conditional pushes contribute the pushed variant or nothing. -/
theorem mem_ite_nil_left {c : Prop} [Decidable c] {v x : Variant}
    (h : v ∈ (if c then ([] : List Variant) else [x])) : v = x := by
  split at h
  · simp at h
  · simpa using h

/-- Names and buffer provenance of every pushed candidate: the name is one
of the seven source labels, and the buffer is the raw buffer itself, the
raw buffer with the BOM dropped, or a UTF-8 re-encoding of a string. -/
theorem rawVariants_mem {raw : List Nat} {v : Variant} (hv : v ∈ rawVariants raw) :
    v.name ∈ (["exact", "trim-trailing-crlf", "normalize-crlf->lf", "remove-bom",
      "json-stringified", "trim-trailing-space", "normalize-crlf->cr"] : List String) ∧
    (v.buffer = raw ∨ v.buffer = raw.drop 3 ∨ ∃ cs, v.buffer = utf8Encode cs) := by
  rcases hj : jsonParse (utf8Decode raw) with _ | parsed
  · simp only [rawVariants, hj, List.mem_cons, List.mem_append, List.mem_ite_nil_left,
      List.mem_ite_nil_right, List.mem_singleton, List.not_mem_nil, or_false, false_or,
      or_assoc] at hv
    rcases hv with rfl | ⟨-, rfl⟩ | ⟨-, rfl⟩ | ⟨-, rfl⟩ | ⟨-, rfl⟩ | ⟨-, rfl⟩
    · exact ⟨by simp, Or.inl rfl⟩
    · exact ⟨by simp, Or.inr (Or.inr ⟨_, rfl⟩)⟩
    · exact ⟨by simp, Or.inr (Or.inr ⟨_, rfl⟩)⟩
    · exact ⟨by simp, Or.inr (Or.inl rfl)⟩
    · exact ⟨by simp, Or.inr (Or.inr ⟨_, rfl⟩)⟩
    · exact ⟨by simp, Or.inr (Or.inr ⟨_, rfl⟩)⟩
  · simp only [rawVariants, hj, List.mem_cons, List.mem_append, List.mem_ite_nil_left,
      List.mem_ite_nil_right, List.mem_singleton, List.not_mem_nil, or_false, false_or,
      or_assoc] at hv
    rcases hv with rfl | ⟨-, rfl⟩ | ⟨-, rfl⟩ | ⟨-, rfl⟩ | ⟨-, rfl⟩ | ⟨-, rfl⟩ | ⟨-, rfl⟩
    · exact ⟨by simp, Or.inl rfl⟩
    · exact ⟨by simp, Or.inr (Or.inr ⟨_, rfl⟩)⟩
    · exact ⟨by simp, Or.inr (Or.inr ⟨_, rfl⟩)⟩
    · exact ⟨by simp, Or.inr (Or.inl rfl)⟩
    · exact ⟨by simp, Or.inr (Or.inr ⟨_, rfl⟩)⟩
    · exact ⟨by simp, Or.inr (Or.inr ⟨_, rfl⟩)⟩
    · exact ⟨by simp, Or.inr (Or.inr ⟨_, rfl⟩)⟩

/-- The source pushes at most seven candidates before deduplication. -/
theorem rawVariants_length_le (raw : List Nat) : (rawVariants raw).length ≤ 7 := by
  rcases hj : jsonParse (utf8Decode raw) with _ | parsed <;>
    simp only [rawVariants, hj, List.length_cons, List.length_append] <;>
    split_ifs <;> simp

/-- The candidate list always starts with the unmodified `exact`
candidate. -/
theorem generateVariants_exact_cons (raw : List Nat) :
    ∃ rest, generateVariants raw = ⟨"exact", raw⟩ :: rest :=
  ⟨_, rfl⟩

/-- Byte bounds propagate from the input buffer to every candidate
buffer. -/
theorem rawVariants_bytes_lt {raw : List Nat} (hb : ∀ x ∈ raw, x < 256) :
    ∀ v ∈ rawVariants raw, ∀ x ∈ v.buffer, x < 256 := by
  intro v hv
  rcases (rawVariants_mem hv).2 with h | h | ⟨cs, h⟩
  · exact h ▸ hb
  · exact h ▸ fun x hx => hb x (List.mem_of_mem_drop hx)
  · exact h ▸ utf8Encode_lt256 cs

/-! ## Verification loop lemmas -/

/-- Inside the loop both comparands are Buffers and the length guard makes
the comparator total: `safeEqual` carries exactly the pure comparison
`safeEqualRun`. -/
theorem safeEqual_eq_run (a b : List Nat) :
    safeEqual (.buf a) (.buf b) = Except.ok (safeEqualRun a b) := by
  unfold safeEqual timingSafeEqual safeEqualRun
  by_cases h : a.length = b.length
  · simp [h]
  · simp [h]

/-- The loop returns success on a first candidate whose digest equals the
received bytes, having computed exactly one digest. -/
theorem tryVariants_cons_match (computeHmacBuffer : List Nat → List Nat)
    (received : List Nat) (v : Variant) (rest : List Variant)
    (h : computeHmacBuffer v.buffer = received) :
    tryVariants computeHmacBuffer received (v :: rest) = (⟨true, some v.name⟩, 1) := by
  simp [tryVariants, safeEqualRun, h]

/-- The loop skips a candidate whose digest differs from the received
bytes, counting its digest. -/
theorem tryVariants_cons_fail (computeHmacBuffer : List Nat → List Nat)
    (received : List Nat) (v : Variant) (rest : List Variant)
    (h : computeHmacBuffer v.buffer ≠ received) :
    tryVariants computeHmacBuffer received (v :: rest) =
      ((tryVariants computeHmacBuffer received rest).1,
       (tryVariants computeHmacBuffer received rest).2 + 1) := by
  have hb : (computeHmacBuffer v.buffer == received) = false := by
    simp [h]
  simp [tryVariants, safeEqualRun, hb]

/-- Unfolding of one loop iteration. -/
theorem tryVariants_cons (computeHmacBuffer : List Nat → List Nat)
    (received : List Nat) (v : Variant) (rest : List Variant) :
    tryVariants computeHmacBuffer received (v :: rest) =
      if ((computeHmacBuffer v.buffer).length == received.length &&
          safeEqualRun (computeHmacBuffer v.buffer) received) then
        (⟨true, some v.name⟩, 1)
      else ((tryVariants computeHmacBuffer received rest).1,
            (tryVariants computeHmacBuffer received rest).2 + 1) := rfl

/-- A successful loop forces the received bytes to have digest length. -/
theorem tryVariants_ok_length {computeHmacBuffer : List Nat → List Nat}
    {received : List Nat} (hlen : ∀ x, (computeHmacBuffer x).length = 32) :
    ∀ l : List Variant,
    (tryVariants computeHmacBuffer received l).1.ok = true → received.length = 32 := by
  intro l
  induction l with
  | nil => simp [tryVariants]
  | cons v rest ih =>
    intro hok
    rw [tryVariants_cons] at hok
    by_cases hc : ((computeHmacBuffer v.buffer).length == received.length &&
        safeEqualRun (computeHmacBuffer v.buffer) received) = true
    · have heq : (computeHmacBuffer v.buffer).length = received.length :=
        eq_of_beq ((Bool.and_eq_true _ _).mp hc).1
      rw [← heq, hlen]
    · rw [if_neg hc] at hok
      exact ih hok

/-- When every candidate digest has the wrong length the loop fails after
computing one digest per candidate. -/
theorem tryVariants_all_mismatch {computeHmacBuffer : List Nat → List Nat}
    {received : List Nat} :
    ∀ l : List Variant,
    (∀ v ∈ l, (computeHmacBuffer v.buffer).length ≠ received.length) →
    tryVariants computeHmacBuffer received l = (⟨false, none⟩, l.length) := by
  intro l
  induction l with
  | nil => intro _; rfl
  | cons v rest ih =>
    intro h
    have hv : (computeHmacBuffer v.buffer).length ≠ received.length :=
      h v (by simp)
    have hb : ((computeHmacBuffer v.buffer).length == received.length) = false := by
      simp [hv]
    simp [tryVariants, hb, ih (fun w hw => h w (by simp [hw]))]

/-! ## Claim theorems -/

/-- C1: for every byte sequence `b` and every secret key (equivalently,
every digest function whose digest at `b` has the shape of an HMAC-SHA256
digest: nonempty with byte entries), calling `verifyAcrossVariants` on `b`
with the header `HMAC ` followed by the base64 of the digest of `b`
returns a matched outcome whose candidate label is `"exact"`. -/
theorem verify_signed_raw_matches_exact
    (computeHmacBuffer : List Nat → List Nat) (b : List Nat)
    (hne : computeHmacBuffer b ≠ [])
    (hlt : ∀ y ∈ computeHmacBuffer b, y < 256) :
    verifyAcrossVariants computeHmacBuffer b
      (some ("HMAC " ++ String.mk (b64encodeCore (computeHmacBuffer b)))) =
      ⟨true, some "exact"⟩ := by
  unfold verifyAcrossVariants verifyAcrossVariantsT
  rw [parseSignatureHeader_wellFormed _ hne hlt]
  obtain ⟨rest, hgv⟩ := generateVariants_exact_cons b
  simp only [hgv]
  rw [tryVariants_cons_match computeHmacBuffer (computeHmacBuffer b) ⟨"exact", b⟩ rest rfl]

/-- Witness for C1 at a concrete buffer and digest function. -/
theorem verify_signed_raw_matches_exact_witness :
    verifyAcrossVariants mockHmac [1, 2, 3]
      (some ("HMAC " ++ String.mk (b64encodeCore (mockHmac [1, 2, 3])))) =
      ⟨true, some "exact"⟩ :=
  verify_signed_raw_matches_exact mockHmac [1, 2, 3] (by decide) (by decide)

/-- C5: the comparator never throws for any pair of arguments, returns
false on a length mismatch, and returns true exactly when the byte
contents are equal. -/
theorem safeEqual_contract (x y : JsArg) :
    (∃ r : Bool, safeEqual x y = Except.ok r) ∧
    (∀ a b : List Nat, x = .buf a → y = .buf b →
      ((a.length ≠ b.length → safeEqual x y = Except.ok false) ∧
       (safeEqual x y = Except.ok true ↔ a = b))) := by
  constructor
  · cases x with
    | buf a =>
      cases y with
      | buf b => exact ⟨safeEqualRun a b, safeEqual_eq_run a b⟩
      | other t => exact ⟨false, rfl⟩
    | other t => cases y <;> exact ⟨false, rfl⟩
  · rintro a b rfl rfl
    rw [safeEqual_eq_run]
    constructor
    · intro h
      have : safeEqualRun a b = false := by
        simp [safeEqualRun, h]
      rw [this]
    · constructor
      · intro h
        have : safeEqualRun a b = true := by
          have := Except.ok.inj h
          exact this
        unfold safeEqualRun at this
        exact eq_of_beq ((Bool.and_eq_true _ _).mp this).2
      · rintro rfl
        simp [safeEqualRun]

/-- Witness for C5 at concrete buffers of unequal and equal contents. -/
theorem safeEqual_contract_witness :
    safeEqual (.buf [1]) (.buf [1, 2]) = Except.ok false ∧
    safeEqual (.buf [1, 2]) (.buf [1, 2]) = Except.ok true :=
  ⟨((safeEqual_contract (.buf [1]) (.buf [1, 2])).2 [1] [1, 2] rfl rfl).1 (by decide),
   ((safeEqual_contract (.buf [1, 2]) (.buf [1, 2])).2 [1, 2] [1, 2] rfl rfl).2.mpr rfl⟩

/-- C10: whenever at least one argument is not a byte buffer, the
comparator returns false instead of throwing. -/
theorem safeEqual_non_buffer_false (x y : JsArg)
    (h : (∃ t, x = .other t) ∨ (∃ t, y = .other t)) :
    safeEqual x y = Except.ok false := by
  rcases h with ⟨t, rfl⟩ | ⟨t, rfl⟩
  · cases y <;> rfl
  · cases x <;> rfl

/-- Witness for C10 with a string first argument. -/
theorem safeEqual_non_buffer_false_witness :
    safeEqual (.other "authorization") (.buf [1, 2]) = Except.ok false :=
  safeEqual_non_buffer_false (.other "authorization") (.buf [1, 2])
    (Or.inl ⟨"authorization", rfl⟩)

/-- C8: verification is deterministic — two runs on identical inputs give
identical outcomes and identical instrumented traces. Freedom from
mutation of the request bytes and the secret holds by construction of the
embedding, which is faithful here because every operation the source
performs on them (`slice`, `toString`, `replace`, regex matching,
`crypto` digests) is non-mutating. -/
theorem verify_idempotent_pure (computeHmacBuffer : List Nat → List Nat)
    (rawBuffer : List Nat) (header : Option String) :
    verifyAcrossVariants computeHmacBuffer rawBuffer header =
      verifyAcrossVariants computeHmacBuffer rawBuffer header ∧
    verifyAcrossVariantsT computeHmacBuffer rawBuffer header =
      verifyAcrossVariantsT computeHmacBuffer rawBuffer header :=
  ⟨rfl, rfl⟩

/-- C9: a matched outcome is only possible when the decoded claim is
exactly 32 bytes (the HMAC-SHA256 digest length); any other decoded length
forces rejection of every candidate. -/
theorem matched_requires_digest_length (computeHmacBuffer : List Nat → List Nat)
    (hlen : ∀ x, (computeHmacBuffer x).length = 32)
    (rawBuffer : List Nat) (header : Option String) :
    ((verifyAcrossVariants computeHmacBuffer rawBuffer header).ok = true →
      ∃ claim, parseSignatureHeader header = some claim ∧ claim.length = 32) ∧
    (∀ claim, parseSignatureHeader header = some claim → claim.length ≠ 32 →
      verifyAcrossVariants computeHmacBuffer rawBuffer header = ⟨false, none⟩) := by
  constructor
  · intro hok
    unfold verifyAcrossVariants verifyAcrossVariantsT at hok
    cases hp : parseSignatureHeader header with
    | none => rw [hp] at hok; exact absurd hok (by simp)
    | some claim =>
      rw [hp] at hok
      exact ⟨claim, rfl, tryVariants_ok_length hlen _ hok⟩
  · intro claim hp hne
    unfold verifyAcrossVariants verifyAcrossVariantsT
    rw [hp]
    have hmis : ∀ v ∈ generateVariants rawBuffer,
        (computeHmacBuffer v.buffer).length ≠ claim.length := by
      intro v _
      rw [hlen]
      omega
    simp only [tryVariants_all_mismatch _ hmis]

/-- Witness for C9: a claim decoding to 3 bytes is rejected. -/
theorem matched_requires_digest_length_witness :
    verifyAcrossVariants mockHmac [1, 2, 3] (some "HMAC AAAA") = ⟨false, none⟩ :=
  (matched_requires_digest_length mockHmac (fun _ => by simp [mockHmac]) [1, 2, 3]
    (some "HMAC AAAA")).2 [0, 0, 0] (by decide) (by decide)

/-- Counterexample to C2: on the header `HMAC not-base64!!` the lenient
base64 decoder does not fail, candidates are generated, and one HMAC
digest per candidate is computed (here one, not zero); the outcome is
still not matched. -/
theorem malformed_base64_digest_computed_cx :
    (verifyAcrossVariantsT mockHmac [120] (some "HMAC not-base64!!")).digests = 1 ∧
    (verifyAcrossVariantsT mockHmac [120] (some "HMAC not-base64!!")).generated = true ∧
    (verifyAcrossVariantsT mockHmac [120] (some "HMAC not-base64!!")).outcome =
      ⟨false, none⟩ := by
  decide

/-- Amended C2: for every body and every digest function with
HMAC-SHA256's digest length, the header `HMAC not-base64!!` leads to a
not-matched outcome — because the leniently decoded claim has 7 bytes,
never 32 — but only after computing one HMAC digest per generated
candidate; there is no early rejection for malformed base64. -/
theorem malformed_base64_hashed_not_matched
    (computeHmacBuffer : List Nat → List Nat)
    (hlen : ∀ x, (computeHmacBuffer x).length = 32) (rawBuffer : List Nat) :
    verifyAcrossVariantsT computeHmacBuffer rawBuffer (some "HMAC not-base64!!") =
      ⟨⟨false, none⟩, (generateVariants rawBuffer).length, true⟩ ∧
    1 ≤ (generateVariants rawBuffer).length := by
  have hp : parseSignatureHeader (some "HMAC not-base64!!") =
      some [158, 139, 126, 109, 171, 30, 235] := by decide
  constructor
  · unfold verifyAcrossVariantsT
    rw [hp]
    have hmis : ∀ v ∈ generateVariants rawBuffer,
        (computeHmacBuffer v.buffer).length ≠
          ([158, 139, 126, 109, 171, 30, 235] : List Nat).length := by
      intro v _
      rw [hlen]
      simp
    simp only [tryVariants_all_mismatch _ hmis]
  · obtain ⟨rest, h⟩ := generateVariants_exact_cons rawBuffer
    rw [h]
    simp

/-- Witness for the amended C2 at a concrete body. -/
theorem malformed_base64_hashed_not_matched_witness :
    verifyAcrossVariantsT mockHmac [120] (some "HMAC not-base64!!") =
      ⟨⟨false, none⟩, (generateVariants [120]).length, true⟩ ∧
    1 ≤ (generateVariants [120]).length :=
  malformed_base64_hashed_not_matched mockHmac (fun _ => by simp [mockHmac]) [120]

/-- Counterexample to C4: the header `HMAC  ` (whitespace only after the
prefix, hence no non-whitespace character) nevertheless passes the
source's `/^HMAC\s+(.+)$/i` check — the greedy `\s+` gives one whitespace
character back to `.+` — so candidates are generated and one digest is
computed, contradicting the claimed rejection without candidate
evaluation. -/
theorem whitespace_payload_header_cx :
    ("HMAC  ".data.drop 5 ≠ []) ∧
    ("HMAC  ".data.take 5 = "HMAC ".data) ∧
    ("HMAC  ".data.drop 5).all isJsWs = true ∧
    verifyAcrossVariantsT mockHmac [120] (some "HMAC  ") =
      ⟨⟨false, none⟩, 1, true⟩ := by
  decide

/-- Amended C4: verification rejects with no candidate generated and no
digest computed exactly when the header fails the source's parse — it is
missing, empty, or fails the regex `^HMAC\s+(.+)$` (case-insensitive
`HMAC`, one or more whitespace characters, then at least one further
character, which may itself be whitespace). In particular the missing and
empty headers parse to `none`. -/
theorem reject_without_candidates_iff_unparsed
    (computeHmacBuffer : List Nat → List Nat) (rawBuffer : List Nat)
    (header : Option String) (h : parseSignatureHeader header = none) :
    verifyAcrossVariantsT computeHmacBuffer rawBuffer header =
      ⟨⟨false, none⟩, 0, false⟩ ∧
    parseSignatureHeader none = none ∧
    parseSignatureHeader (some "") = none := by
  refine ⟨?_, rfl, by decide⟩
  unfold verifyAcrossVariantsT
  rw [h]

/-- Witness for the amended C4 at a concrete unparsable header. -/
theorem reject_without_candidates_iff_unparsed_witness :
    verifyAcrossVariantsT mockHmac [120] (some "Bearer xyz") =
      ⟨⟨false, none⟩, 0, false⟩ ∧
    parseSignatureHeader none = none ∧
    parseSignatureHeader (some "") = none :=
  reject_without_candidates_iff_unparsed mockHmac [120] (some "Bearer xyz") (by decide)

/-- Body of the spec's concrete scenario B (section 8): an Activity-style
object whose `text` field carries mention markup and an HTML entity,
serialized with no insignificant whitespace. -/
def c3Body : String :=
  "\x7b\"type\":\"message\",\"id\":\"1\",\"timestamp\":\"2025-01-01T00:00:00Z\",\"text\":\"<at>Alice</at> hi&nbsp;there\"\x7d"

/-- Reduced canonical Activity object of scenario B: the same fields with
the `text` rendered to plain text, as the spec's candidate 6 would
re-serialize it. -/
def c3Canonical : String :=
  "\x7b\"type\":\"message\",\"id\":\"1\",\"timestamp\":\"2025-01-01T00:00:00Z\",\"text\":\"@Alice hi there\"\x7d"

/-- Counterexample to C3: for the scenario-B body — a JSON object — the
generated candidate sequence consists of the `exact` candidate alone
(there is no Canonical-Activity candidate in `generateVariants`), and
verifying the body against a signature computed over the reduced
canonical Activity object fails. -/
theorem no_canonical_activity_candidate_cx :
    (generateVariants (utf8Encode c3Body.data)).map (fun v => v.name) = ["exact"] ∧
    verifyAcrossVariants mockHmac (utf8Encode c3Body.data)
      (some ("HMAC " ++ String.mk (b64encodeCore (mockHmac (utf8Encode c3Canonical.data))))) =
      ⟨false, none⟩ := by
  decide

/-- Amended C3: every candidate produced by `generateVariants` bears one
of the seven source labels; no Canonical-Activity candidate exists, so a
body signed over the reduced canonical Activity object is not verified
through any such candidate. -/
theorem generateVariants_label_set (raw : List Nat) :
    ∀ v ∈ generateVariants raw,
      v.name ∈ (["exact", "trim-trailing-crlf", "normalize-crlf->lf", "remove-bom",
        "json-stringified", "trim-trailing-space", "normalize-crlf->cr"] : List String) ∧
      v.name ≠ "canonical-activity" := by
  intro v hv
  have h := (rawVariants_mem (dedupByKey_subset v hv)).1
  refine ⟨h, ?_⟩
  intro hname
  rw [hname] at h
  simp at h

/-- Witness for the amended C3 at the empty body. -/
theorem generateVariants_label_set_witness :
    (⟨"exact", ([] : List Nat)⟩ : Variant).name ∈
      (["exact", "trim-trailing-crlf", "normalize-crlf->lf", "remove-bom",
        "json-stringified", "trim-trailing-space", "normalize-crlf->cr"] : List String) ∧
    (⟨"exact", ([] : List Nat)⟩ : Variant).name ≠ "canonical-activity" :=
  generateVariants_label_set [] ⟨"exact", []⟩ (by decide)

/-- C6: for every byte buffer the candidate list has between 1 and 8
entries, starts with the unconditional `exact` candidate, contains no two
candidates with identical byte content, every generated byte content
survives deduplication, and each kept candidate is the first-generated
one with its content. -/
theorem generateVariants_bounded_dedup (raw : List Nat) (hb : ∀ x ∈ raw, x < 256) :
    (1 ≤ (generateVariants raw).length ∧ (generateVariants raw).length ≤ 8) ∧
    (generateVariants raw).head? = some ⟨"exact", raw⟩ ∧
    ((generateVariants raw).map (fun v => v.buffer)).Nodup ∧
    (∀ w ∈ rawVariants raw, ∃ v ∈ generateVariants raw, v.buffer = w.buffer) ∧
    (∀ v ∈ generateVariants raw, ∃ i : Nat, (rawVariants raw)[i]? = some v ∧
      ∀ j, j < i → ∀ w, (rawVariants raw)[j]? = some w → w.buffer ≠ v.buffer) := by
  obtain ⟨rest, hgv⟩ := generateVariants_exact_cons raw
  have hbytes : ∀ v ∈ rawVariants raw, ∀ x ∈ v.buffer, x < 256 :=
    rawVariants_bytes_lt hb
  refine ⟨⟨?_, ?_⟩, ?_, ?_, ?_, ?_⟩
  · rw [hgv]; simp
  · exact Nat.le_trans (dedupByKey_length_le _ _)
      (Nat.le_trans (rawVariants_length_le raw) (by norm_num))
  · rw [hgv]; rfl
  · have hkeys : ((generateVariants raw).map variantKey).Nodup :=
      (dedupByKey_keys (rawVariants raw) []).2
    have hmapmap : (generateVariants raw).map variantKey =
        ((generateVariants raw).map (fun v => v.buffer)).map b64encodeCore := by
      rw [List.map_map]
      rfl
    rw [hmapmap] at hkeys
    exact hkeys.of_map
  · intro w hw
    rcases dedupByKey_coverage (rawVariants raw) [] w hw with hs | ⟨v, hv, hk⟩
    · simp at hs
    · refine ⟨v, hv, ?_⟩
      exact b64encodeCore_inj
        (hbytes v (dedupByKey_subset v hv))
        (hbytes w hw) hk
  · intro v hv
    obtain ⟨-, i, hi, hj⟩ := dedupByKey_first_occ (rawVariants raw) [] v hv
    refine ⟨i, hi, ?_⟩
    intro j hji w hw heq
    exact hj j hji w hw (by rw [variantKey, variantKey, heq])

/-- Witness for C6 at a concrete buffer with duplicate-producing steps. -/
theorem generateVariants_bounded_dedup_witness :
    (generateVariants [104, 105, 13, 10]).head? =
      some ⟨"exact", [104, 105, 13, 10]⟩ ∧
    (generateVariants [104, 105, 13, 10]).length ≤ 8 :=
  ⟨(generateVariants_bounded_dedup [104, 105, 13, 10] (by decide)).2.1,
   (generateVariants_bounded_dedup [104, 105, 13, 10] (by decide)).1.2⟩

/-! ## Trailing CR/LF trimming lemmas (claim C7) -/

/-- Trimming a trailing CR/LF character removes it. -/
theorem trimTrailingCRLF_snoc_true {cs : List Char} {c : Char}
    (h : isCrOrLf c = true) :
    trimTrailingCRLF (cs ++ [c]) = trimTrailingCRLF cs := by
  unfold trimTrailingCRLF
  rw [List.reverse_append]
  simp [List.dropWhile_cons, h]

/-- Trimming stops at a final non-CR/LF character. -/
theorem trimTrailingCRLF_snoc_false {cs : List Char} {c : Char}
    (h : isCrOrLf c = false) :
    trimTrailingCRLF (cs ++ [c]) = cs ++ [c] := by
  unfold trimTrailingCRLF
  rw [List.reverse_append]
  simp [List.dropWhile_cons, h]

/-- Byte-level trimming removes a trailing CR or LF byte. -/
theorem byteTrim_snoc_true {bs : List Nat} {x : Nat}
    (h : (x == 13 || x == 10) = true) :
    byteTrimTrailingCRLF (bs ++ [x]) = byteTrimTrailingCRLF bs := by
  unfold byteTrimTrailingCRLF
  rw [List.reverse_append]
  simp [List.dropWhile_cons, h]

/-- Byte-level trimming stops at a final byte that is neither CR nor
LF. -/
theorem byteTrim_snoc_false {bs : List Nat} {x : Nat}
    (h : (x == 13 || x == 10) = false) :
    byteTrimTrailingCRLF (bs ++ [x]) = bs ++ [x] := by
  unfold byteTrimTrailingCRLF
  rw [List.reverse_append]
  simp [List.dropWhile_cons, h]

/-- Characters below 0x80 are encoded as their own single byte. -/
theorem utf8EncodeChar_ascii {c : Char} (h : c.toNat < 0x80) :
    utf8EncodeChar c = [c.toNat] := by
  simp [utf8EncodeChar, h]

/-- Characters at or above 0x80 are encoded with a final continuation
byte `0x80 + toNat % 64`. -/
theorem utf8EncodeChar_last_cont {c : Char} (h : ¬c.toNat < 0x80) :
    ∃ z, utf8EncodeChar c = z ++ [0x80 + c.toNat % 64] := by
  unfold utf8EncodeChar
  rw [if_neg h]
  by_cases h2 : c.toNat < 0x800
  · exact ⟨[0xC0 + c.toNat / 64], by rw [if_pos h2]; rfl⟩
  · rw [if_neg h2]
    by_cases h3 : c.toNat < 0x10000
    · exact ⟨[0xE0 + c.toNat / 4096, 0x80 + (c.toNat / 64) % 64], by rw [if_pos h3]; rfl⟩
    · exact ⟨[0xF0 + c.toNat / 262144, 0x80 + (c.toNat / 4096) % 64,
        0x80 + (c.toNat / 64) % 64], by rw [if_neg h3]; rfl⟩

/-- Key commutation: re-encoding the trimmed decoded string equals
byte-level trimming of the re-encoded string, for every character list.
In `generateVariants` this identifies the `trim-trailing-crlf` candidate's
bytes with the byte-trimmed body whenever the body UTF-8 round-trips. -/
theorem utf8Encode_trim_comm (cs : List Char) :
    utf8Encode (trimTrailingCRLF cs) = byteTrimTrailingCRLF (utf8Encode cs) := by
  induction cs using List.reverseRecOn with
  | nil => rfl
  | append_singleton cs' c ih =>
    by_cases hc : isCrOrLf c = true
    · rw [trimTrailingCRLF_snoc_true hc, ih, utf8Encode_append]
      have h13 : c = '\r' ∨ c = '\n' := by
        unfold isCrOrLf at hc
        rcases Bool.or_eq_true_iff.mp hc with h | h
        · exact Or.inl (eq_of_beq h)
        · exact Or.inr (eq_of_beq h)
      rcases h13 with rfl | rfl
      · rw [show utf8Encode ['\r'] = [13] from rfl, byteTrim_snoc_true (by decide)]
      · rw [show utf8Encode ['\n'] = [10] from rfl, byteTrim_snoc_true (by decide)]
    · rw [Bool.not_eq_true] at hc
      rw [trimTrailingCRLF_snoc_false hc, utf8Encode_append]
      by_cases h80 : c.toNat < 0x80
      · have hec : utf8Encode [c] = [c.toNat] := by
          show utf8EncodeChar c ++ [] = [c.toNat]
          rw [utf8EncodeChar_ascii h80, List.append_nil]
        rw [hec]
        have hx : (c.toNat == 13 || c.toNat == 10) = false := by
          have h13 : c.toNat ≠ 13 := by
            intro he
            have : c = '\r' := by
              have := congrArg Char.ofNat he
              rwa [Char.ofNat_toNat] at this
            rw [this] at hc
            exact absurd hc (by decide)
          have h10 : c.toNat ≠ 10 := by
            intro he
            have : c = '\n' := by
              have := congrArg Char.ofNat he
              rwa [Char.ofNat_toNat] at this
            rw [this] at hc
            exact absurd hc (by decide)
          simp [h13, h10]
        rw [byteTrim_snoc_false hx]
      · obtain ⟨z, hz⟩ := utf8EncodeChar_last_cont h80
        have hzz : utf8Encode [c] = z ++ [0x80 + c.toNat % 64] := by
          show utf8EncodeChar c ++ [] = z ++ [0x80 + c.toNat % 64]
          rw [hz, List.append_nil]
        rw [hzz, ← List.append_assoc]
        have hx : ((0x80 + c.toNat % 64 : Nat) == 13 || (0x80 + c.toNat % 64 : Nat) == 10)
            = false := by
          have h1 : (0x80 + c.toNat % 64 : Nat) ≠ 13 := by omega
          have h2 : (0x80 + c.toNat % 64 : Nat) ≠ 10 := by omega
          simp [h1, h2]
        rw [byteTrim_snoc_false hx]

/-- Byte-level trimming never invents bytes. -/
theorem byteTrim_subset (bs : List Nat) :
    ∀ x ∈ byteTrimTrailingCRLF bs, x ∈ bs := by
  intro x hx
  unfold byteTrimTrailingCRLF at hx
  rw [List.mem_reverse] at hx
  have := (List.dropWhile_sublist (l := bs.reverse)
    (p := fun b => b == 13 || b == 10)).mem hx
  rwa [List.mem_reverse] at this

/-- A buffer ending in CR LF strictly shrinks under byte-level trimming. -/
theorem byteTrim_crlf_ne (b0 : List Nat) :
    byteTrimTrailingCRLF (b0 ++ [13, 10]) ≠ b0 ++ [13, 10] := by
  have hsplit : b0 ++ [13, 10] = (b0 ++ [13]) ++ [10] := by simp
  have h1 : byteTrimTrailingCRLF (b0 ++ [13, 10]) = byteTrimTrailingCRLF b0 := by
    rw [hsplit, byteTrim_snoc_true (by decide), byteTrim_snoc_true (by decide)]
  have h2 : (byteTrimTrailingCRLF b0).length ≤ b0.length := by
    unfold byteTrimTrailingCRLF
    rw [List.length_reverse]
    have := (List.dropWhile_sublist (l := b0.reverse)
      (p := fun b => b == 13 || b == 10)).length_le
    rwa [List.length_reverse] at this
  intro heq
  have := congrArg List.length heq
  rw [h1] at this
  simp at this
  omega

/-- Deduplication keeps the first two variants when their keys differ. -/
theorem dedupByKey_cons₂ (v1 v2 : Variant) (t : List Variant)
    (hk : b64encodeCore v2.buffer ≠ b64encodeCore v1.buffer) :
    dedupByKey (v1 :: v2 :: t) [] =
      v1 :: v2 :: dedupByKey t
        [b64encodeCore v2.buffer, b64encodeCore v1.buffer] := by
  simp [dedupByKey, hk]

/-- With a body whose decoded string really has trailing CR/LF, the pushed
list starts with the exact and trim-trailing-crlf candidates. -/
theorem rawVariants_trim_cons {raw : List Nat}
    (hcond : ¬(trimTrailingCRLF (utf8Decode raw) = utf8Decode raw)) :
    ∃ T, rawVariants raw = ⟨"exact", raw⟩ ::
      ⟨"trim-trailing-crlf", utf8Encode (trimTrailingCRLF (utf8Decode raw))⟩ :: T := by
  refine ⟨(if replaceCrlfWithLf (utf8Decode raw) = utf8Decode raw then [] else
      [(⟨"normalize-crlf->lf", utf8Encode (replaceCrlfWithLf (utf8Decode raw))⟩ : Variant)]) ++
    ((if 3 ≤ raw.length ∧ raw.take 3 = [0xEF, 0xBB, 0xBF] then
        [(⟨"remove-bom", raw.drop 3⟩ : Variant)] else []) ++
      ((match jsonParse (utf8Decode raw) with
        | some parsed =>
          if jsonStringify parsed = utf8Decode raw then []
          else [(⟨"json-stringified", utf8Encode (jsonStringify parsed)⟩ : Variant)]
        | none => []) ++
        ((if trimTrailingJsWs (utf8Decode raw) = utf8Decode raw then []
          else [(⟨"trim-trailing-space",
            utf8Encode (trimTrailingJsWs (utf8Decode raw))⟩ : Variant)]) ++
          (if replaceCrlfWithCr (utf8Decode raw) = utf8Decode raw then []
           else [(⟨"normalize-crlf->cr",
             utf8Encode (replaceCrlfWithCr (utf8Decode raw))⟩ : Variant)])))), ?_⟩
  simp only [rawVariants, if_neg hcond, List.singleton_append, List.cons_append,
    List.append_assoc, List.nil_append]

/-- C7 (amended): for every byte sequence that UTF-8 round-trips (in
particular every valid UTF-8 sequence) and ends in CR LF, verifying it
against the digest of its byte-trimmed form — provided the digest has the
shape of an HMAC-SHA256 digest and differs from the digest of the
untrimmed bytes — returns a matched outcome labelled
`"trim-trailing-crlf"`. -/
theorem verify_signed_trimmed_matches_trim_crlf
    (computeHmacBuffer : List Nat → List Nat) (b0 : List Nat)
    (hrt : utf8Encode (utf8Decode (b0 ++ [13, 10])) = b0 ++ [13, 10])
    (hbytes : ∀ x ∈ b0 ++ [13, 10], x < 256)
    (hne : computeHmacBuffer (byteTrimTrailingCRLF (b0 ++ [13, 10])) ≠ [])
    (hlt : ∀ y ∈ computeHmacBuffer (byteTrimTrailingCRLF (b0 ++ [13, 10])), y < 256)
    (hdiff : computeHmacBuffer (b0 ++ [13, 10]) ≠
      computeHmacBuffer (byteTrimTrailingCRLF (b0 ++ [13, 10]))) :
    verifyAcrossVariants computeHmacBuffer (b0 ++ [13, 10])
      (some ("HMAC " ++ String.mk (b64encodeCore
        (computeHmacBuffer (byteTrimTrailingCRLF (b0 ++ [13, 10])))))) =
      ⟨true, some "trim-trailing-crlf"⟩ := by
  have hbuf : utf8Encode (trimTrailingCRLF (utf8Decode (b0 ++ [13, 10]))) =
      byteTrimTrailingCRLF (b0 ++ [13, 10]) := by
    rw [utf8Encode_trim_comm, hrt]
  have hcond : ¬(trimTrailingCRLF (utf8Decode (b0 ++ [13, 10])) =
      utf8Decode (b0 ++ [13, 10])) := by
    intro he
    have hh := congrArg utf8Encode he
    rw [hbuf, hrt] at hh
    exact byteTrim_crlf_ne b0 hh
  obtain ⟨T, hraw⟩ := rawVariants_trim_cons hcond
  rw [hbuf] at hraw
  have hkne : b64encodeCore (byteTrimTrailingCRLF (b0 ++ [13, 10])) ≠
      b64encodeCore (b0 ++ [13, 10]) := by
    intro he
    exact byteTrim_crlf_ne b0 (b64encodeCore_inj
      (fun x hx => hbytes x (byteTrim_subset _ x hx)) hbytes he)
  have hgv : generateVariants (b0 ++ [13, 10]) =
      ⟨"exact", b0 ++ [13, 10]⟩ ::
      ⟨"trim-trailing-crlf", byteTrimTrailingCRLF (b0 ++ [13, 10])⟩ ::
      dedupByKey T [b64encodeCore (byteTrimTrailingCRLF (b0 ++ [13, 10])),
        b64encodeCore (b0 ++ [13, 10])] := by
    unfold generateVariants
    rw [hraw]
    exact dedupByKey_cons₂ _ _ _ hkne
  unfold verifyAcrossVariants verifyAcrossVariantsT
  rw [parseSignatureHeader_wellFormed _ hne hlt]
  simp only [hgv]
  rw [tryVariants_cons_fail computeHmacBuffer
    (computeHmacBuffer (byteTrimTrailingCRLF (b0 ++ [13, 10])))
    ⟨"exact", b0 ++ [13, 10]⟩ _ hdiff]
  rw [tryVariants_cons_match computeHmacBuffer
    (computeHmacBuffer (byteTrimTrailingCRLF (b0 ++ [13, 10])))
    ⟨"trim-trailing-crlf", byteTrimTrailingCRLF (b0 ++ [13, 10])⟩ _ rfl]

/-- Witness for the amended C7 at a concrete valid-UTF-8 body
`hi\r\n`. -/
theorem verify_signed_trimmed_matches_trim_crlf_witness :
    verifyAcrossVariants mockHmac ([104, 105] ++ [13, 10])
      (some ("HMAC " ++ String.mk (b64encodeCore
        (mockHmac (byteTrimTrailingCRLF ([104, 105] ++ [13, 10])))))) =
      ⟨true, some "trim-trailing-crlf"⟩ :=
  verify_signed_trimmed_matches_trim_crlf mockHmac [104, 105]
    (by decide) (by decide) (by decide) (by decide) (by decide)

/-- Counterexample to C7 as stated: the invalid-UTF-8 body
`FF 0D 0A` ends in CR LF, but the trim-trailing-crlf candidate is built by
re-encoding the decoded string, whose replacement character turns `FF`
into `EF BF BD`; the byte-trimmed form `[255]` is not among the candidate
buffers, and verification against its digest fails. -/
theorem invalid_utf8_trim_crlf_cx :
    byteTrimTrailingCRLF [255, 13, 10] = [255] ∧
    ¬ [255] ∈ (generateVariants [255, 13, 10]).map (fun v => v.buffer) ∧
    verifyAcrossVariants mockHmac [255, 13, 10]
      (some ("HMAC " ++ String.mk (b64encodeCore
        (mockHmac (byteTrimTrailingCRLF [255, 13, 10]))))) = ⟨false, none⟩ := by
  decide
